import Mathlib

set_option maxHeartbeats 1000000

/-!
Verification of the IntelX credential scanner (src/main.py) against its
specification.  The script is embedded shallowly: strings are lists of
characters, the credential regular expression is embedded as a specialised
backtracking matcher with the exact leftmost/greedy semantics of the
Python engine, the per-line extraction loop and its dedup set are an
explicit fold, the retry helper is a recursion on the remaining attempt
count, and the three output formats are pure functions on modelled file
contents.
-/

/-! ### Character classes of CRED_PATTERN

The source pattern is r'([^/:\s]+@[^/:\s]+\.[a-zA-Z]{2,}):(.+)$'.
pySpaceCodes lists the code points matched by the Python escape for
whitespace on str patterns (ASCII whitespace plus the Unicode space
characters and separators).
-/

def pySpaceCodes : List Nat :=
  [9, 10, 11, 12, 13, 28, 29, 30, 31, 32, 133, 160, 5760,
   8192, 8193, 8194, 8195, 8196, 8197, 8198, 8199, 8200, 8201, 8202,
   8232, 8233, 8239, 8287, 12288]

/-- Python whitespace class, as a Boolean predicate on characters. -/
def pySpace (c : Char) : Bool := decide (c.toNat ∈ pySpaceCodes)

/-- Character class of the local part and domain of the pattern:
everything except a slash, a colon and whitespace. -/
def credChar (c : Char) : Bool := !((c == '/') || (c == ':') || pySpace c)

/-- Character class of the top-level-domain part of the pattern. -/
def asciiLetter (c : Char) : Bool :=
  (65 ≤ c.toNat && c.toNat ≤ 90) || (97 ≤ c.toNat && c.toNat ≤ 122)

/-- Length of the longest run of characters satisfying p at the front of
the list: the maximal amount a greedy repetition can consume. -/
def runLen (p : Char → Bool) : List Char → Nat
  | [] => 0
  | c :: cs => if p c then runLen p cs + 1 else 0

/-- First success of f over a list of candidate lengths, in order.  The
backtracking engine tries candidate lengths from the longest down. -/
def firstSome {α : Type} (f : Nat → Option α) : List Nat → Option α
  | [] => none
  | n :: ns =>
    match f n with
    | some r => some r
    | none => firstSome f ns

/-- Removal of one trailing newline, as performed by the end-of-line
anchor of the pattern (the dollar matches before a final newline). -/
def chopNl (rest : List Char) : List Char :=
  if rest.getLast? = some '\n' then rest.dropLast else rest

/-- Match of the password part of the pattern against the remainder of
the line: one or more non-newline characters reaching the end. -/
def matchTail (rest : List Char) : Option (List Char) :=
  if (chopNl rest).isEmpty || (chopNl rest).contains '\n' then none
  else some (chopNl rest)

/-- One candidate length for the top-level-domain repetition: at least
two letters, followed by a literal colon and the password. -/
def trySuffix (l : List Char) (m : Nat) : Option (List Char × List Char) :=
  if 2 ≤ m ∧ m ≤ runLen asciiLetter l then
    match l.drop m with
    | ':' :: rest => (matchTail rest).map (fun p => (l.take m, p))
    | _ => none
  else none

/-- Greedy match of the top-level-domain repetition. -/
def matchSuffix (l : List Char) : Option (List Char × List Char) :=
  firstSome (trySuffix l) (List.range (runLen asciiLetter l + 1)).reverse

/-- One candidate length for the domain repetition: a nonempty run of
pattern characters, a literal dot, then the top-level domain. -/
def tryY (l : List Char) (j : Nat) : Option (List Char × List Char × List Char) :=
  if 1 ≤ j ∧ j ≤ runLen credChar l then
    match l.drop j with
    | '.' :: rest => (matchSuffix rest).map (fun sp => (l.take j, sp.1, sp.2))
    | _ => none
  else none

/-- Greedy match of everything after the at-sign. -/
def matchAfterAt (l : List Char) : Option (List Char × List Char × List Char) :=
  firstSome (tryY l) (List.range (runLen credChar l + 1)).reverse

/-- One candidate length for the local-part repetition.  On success the
first component is capture group 1 (the email), the second is capture
group 2 (the password). -/
def tryX (l : List Char) (k : Nat) : Option (List Char × List Char) :=
  if 1 ≤ k ∧ k ≤ runLen credChar l then
    match l.drop k with
    | '@' :: rest =>
      (matchAfterAt rest).map
        (fun ysp => (l.take k ++ '@' :: (ysp.1 ++ '.' :: ysp.2.1), ysp.2.2))
    | _ => none
  else none

/-- Match of the whole pattern anchored at the start of l, with the
greedy backtracking order of the Python engine. -/
def matchAt (l : List Char) : Option (List Char × List Char) :=
  firstSome (tryX l) (List.range (runLen credChar l + 1)).reverse

/-- CRED_PATTERN.search: the leftmost starting position wins; the result
is the match start together with the two capture groups. -/
def searchCred : List Char → Option (Nat × List Char × List Char)
  | [] => none
  | c :: cs =>
    match matchAt (c :: cs) with
    | some ep => some (0, ep.1, ep.2)
    | none => (searchCred cs).map (fun r => (r.1 + 1, r.2.1, r.2.2))

/-! ### Python string helpers used by the script -/

/-- Python str.strip with no argument: surrounding whitespace removed. -/
def stripWs (l : List Char) : List Char :=
  ((l.dropWhile pySpace).reverse.dropWhile pySpace).reverse

/-- Python str.rstrip with a colon argument, used on the url part. -/
def rstripColon (l : List Char) : List Char :=
  (l.reverse.dropWhile (fun c => c == ':')).reverse

/-- Lower-casing for the case-insensitive target search. -/
def lowerList (l : List Char) : List Char := l.map Char.toLower

/-- Substring test, modelling re.search on a regex-escaped (hence
literal) pattern. -/
def containsSub (pat : List Char) : List Char → Bool
  | [] => pat.isEmpty
  | c :: cs => pat.isPrefixOf (c :: cs) || containsSub pat cs

/-- Case-insensitive substring test: re.search of the escaped target
with the IGNORECASE flag. -/
def containsCI (pat s : List Char) : Bool :=
  containsSub (lowerList pat) (lowerList s)

/-! ### Credential records and the extraction loop -/

/-- A credential record as appended to new_creds in the script. -/
structure Cred where
  url : List Char
  email : List Char
  password : List Char
  source : List Char
  raw : List Char
deriving DecidableEq

/-- The dedup key of a record: email, a colon, then the password. -/
def credKey (c : Cred) : List Char := c.email ++ ':' :: c.password

/-- Processing of one line of a fetched document: target containment
check, strip, pattern match, dedup check, and record construction with
the url part taken from before the match start. -/
def extractLine (target sourceName : List Char) (seen : List (List Char))
    (line : List Char) : Option Cred :=
  if containsCI target line then
    match searchCred (stripWs line) with
    | none => none
    | some r =>
      if (r.2.1 ++ ':' :: r.2.2) ∈ seen then none
      else some { url := stripWs (rstripColon ((stripWs line).take r.1)),
                  email := r.2.1, password := r.2.2,
                  source := sourceName, raw := stripWs line }
  else none

/-- One step of the extraction loop: on a successful extraction the key
joins the seen set and the record is appended to new_creds. -/
def stepLine (target sourceName : List Char)
    (st : List (List Char) × List Cred) (line : List Char) :
    List (List Char) × List Cred :=
  match extractLine target sourceName st.1 line with
  | none => st
  | some c => (credKey c :: st.1, st.2 ++ [c])

/-- Processing of one leak document, given as its display name paired
with the lines of its fetched contents. -/
def processLeak (target : List Char) (st : List (List Char) × List Cred)
    (leak : List Char × List (List Char)) : List (List Char) × List Cred :=
  leak.2.foldl (stepLine target leak.1) st

/-- Processing of the whole batch of successfully fetched documents. -/
def processLeaks (target : List Char) (leaks : List (List Char × List (List Char)))
    (st : List (List Char) × List Cred) : List (List Char) × List Cred :=
  leaks.foldl (processLeak target) st

/-! ### FILE_VIEW with retries -/

def MAX_RETRIES : Nat := 3

def RETRY_DELAY : Nat := 2

/-- Outcome of the retry helper: the returned contents (none when the
last failure is re-raised), the number of attempts made, and the list of
sleep durations performed between attempts. -/
structure RetryResult where
  result : Option (List Char)
  attempts : Nat
  sleeps : List Nat
deriving DecidableEq

/-- The retry loop of file_view_with_retry.  The first argument gives
the outcome of the fetch at each attempt number; the Nat arguments are
the remaining attempt count, the current attempt number and the current
delay.  When the final attempt fails the exception propagates; when the
attempt range is empty the function falls through and returns the empty
string. -/
def fvGo (fetch : Nat → Option (List Char)) : Nat → Nat → Nat → RetryResult
  | 0, _, _ => ⟨some [], 0, []⟩
  | 1, a, _ =>
    match fetch a with
    | some s => ⟨some s, 1, []⟩
    | none => ⟨none, 1, []⟩
  | (k+2), a, d =>
    match fetch a with
    | some s => ⟨some s, 1, []⟩
    | none =>
      let r := fvGo fetch (k+1) (a+1) (2*d)
      ⟨r.result, r.attempts + 1, d :: r.sleeps⟩

/-- Embedding of file_view_with_retry: attempts start at 1 with the
initial delay RETRY_DELAY, doubling after each failed attempt. -/
def file_view_with_retry (fetch : Nat → Option (List Char)) (max_retries : Nat) :
    RetryResult :=
  fvGo fetch max_retries 1 RETRY_DELAY

/-- The exponential backoff sequence: m delays starting at d, each twice
the previous one. -/
def backoff (d : Nat) : Nat → List Nat
  | 0 => []
  | m+1 => d :: backoff (2*d) m

/-! ### The per-document driver loop and its rate limiting -/

def REQUEST_DELAY : ℚ := 1/2

/-- Observable events of the driver loop: the fetch of document i, and a
sleep of the given duration. -/
inductive Ev where
  | fetch : Nat → Ev
  | sleep : ℚ → Ev
deriving DecidableEq

/-- Trace of the driver loop from document index i on.  Each Boolean
tells whether the processing of that document completed without an
exception; on an exception the loop continues with the next document,
skipping the rate-limit sleep, which is also skipped after the last
document of the batch. -/
def driverTraceAux (i : Nat) : List Bool → List Ev
  | [] => []
  | ok :: rest =>
    Ev.fetch i ::
      ((if ok && !rest.isEmpty then [Ev.sleep REQUEST_DELAY] else []) ++
        driverTraceAux (i+1) rest)

/-- Trace of the whole driver loop. -/
def driverTrace (docs : List Bool) : List Ev := driverTraceAux 0 docs

/-- Whether some sleep separates every two consecutive fetches of the
trace. -/
def noAdjacentFetches : List Ev → Bool
  | Ev.fetch _ :: Ev.fetch _ :: _ => false
  | _ :: rest => noAdjacentFetches rest
  | [] => true

/-- Number of sleep events of a trace. -/
def countSleeps (tr : List Ev) : Nat :=
  tr.countP (fun e => match e with | Ev.sleep _ => true | _ => false)

/-! ### The result aggregator -/

/-- A document metadata record returned by a search query; only the
storage identifier and the display name matter here.  A missing
identifier is none; the Python truthiness test also rejects an empty
identifier string. -/
structure RawDoc where
  storageid : Option (List Char)
  name : List Char
deriving DecidableEq

/-- One step of the aggregation loop over the records of one query. -/
def aggStep (st : List (List Char) × List RawDoc) (r : RawDoc) :
    List (List Char) × List RawDoc :=
  match r.storageid with
  | none => st
  | some sid =>
    if sid.isEmpty = false ∧ sid ∉ st.1 then (sid :: st.1, st.2 ++ [r]) else st

/-- Aggregation of the results of all (term, bucket) queries: seen_ids
and all_results, built in query order. -/
def aggregate (queries : List (List RawDoc)) : List (List Char) × List RawDoc :=
  queries.foldl (fun st recs => recs.foldl aggStep st) ([], [])

/-! ### Persistence: the three output formats and the resume load -/

/-- An object of the json output document.  Each field is optional, as
the loader reads fields with a default. -/
structure JEntry where
  url : Option (List Char)
  email : Option (List Char)
  password : Option (List Char)
  source : Option (List Char)
  raw : Option (List Char)
deriving DecidableEq

/-- The json object written for a new credential record. -/
def credToEntry (c : Cred) : JEntry :=
  ⟨some c.url, some c.email, some c.password, some c.source, some c.raw⟩

/-- The dedup key computed when loading a structured entry: the email
and password fields read with an empty-string default. -/
def entryKey (e : JEntry) : List Char :=
  (e.email.getD []) ++ ':' :: (e.password.getD [])

/-- A row of the csv output: the header row or a data row with the four
persisted columns. -/
inductive CsvRow where
  | header : CsvRow
  | data : List Char → List Char → List Char → List Char → CsvRow
deriving DecidableEq

/-- The csv data row written for a new credential record. -/
def credToRow (c : Cred) : CsvRow :=
  CsvRow.data c.url c.email c.password c.source

/-- The txt writer: the raw line of each new record followed by a
newline, appended to the existing contents (an absent file appends to
nothing). -/
def writeTxtFile (old : Option (List Char)) (new_creds : List Cred) : List Char :=
  old.getD [] ++ new_creds.foldr (fun c acc => c.raw ++ '\n' :: acc) []

/-- The csv writer: rows are appended; the header row is written first
exactly when the destination was absent or empty. -/
def writeCsvFile (old : Option (List CsvRow)) (new_creds : List Cred) : List CsvRow :=
  old.getD [] ++
    ((if (old.getD []).isEmpty then [CsvRow.header] else []) ++ new_creds.map credToRow)

/-- The json writer: the existing entries are re-read and the new
records are concatenated after them; the whole document is rewritten. -/
def writeJsonDoc (existing : List JEntry) (new_creds : List Cred) : List JEntry :=
  existing ++ new_creds.map credToEntry

/-- Contents of the destination file, one constructor per format. -/
inductive FileContent where
  | jsonC : List JEntry → FileContent
  | csvC : List CsvRow → FileContent
  | txtC : List Char → FileContent
deriving DecidableEq

inductive OutFormat where
  | json
  | csv
  | txt
deriving DecidableEq

/-- Existing json entries as read back at write time: an absent or
unparsable file contributes the empty list. -/
def oldJsonEntries : Option FileContent → List JEntry
  | some (FileContent.jsonC es) => es
  | _ => []

def oldCsvRows : Option FileContent → Option (List CsvRow)
  | some (FileContent.csvC rs) => some rs
  | _ => none

def oldTxtChars : Option FileContent → Option (List Char)
  | some (FileContent.txtC cs) => some cs
  | _ => none

/-- Dispatch of the output writer on the selected format. -/
def writeDispatch (fmt : OutFormat) (old : Option FileContent) (new_creds : List Cred) :
    FileContent :=
  match fmt with
  | OutFormat.json => FileContent.jsonC (writeJsonDoc (oldJsonEntries old) new_creds)
  | OutFormat.csv => FileContent.csvC (writeCsvFile (oldCsvRows old) new_creds)
  | OutFormat.txt => FileContent.txtC (writeTxtFile (oldTxtChars old) new_creds)

/-- The write phase of the run: when no new credentials were found the
writer is not invoked and the destination is left untouched.  The result
carries the destination contents, whether the writer ran, and the exit
status of the run. -/
def writePhase (fmt : OutFormat) (old : Option FileContent) (new_creds : List Cred) :
    Option FileContent × Bool × Nat :=
  if new_creds.isEmpty then (old, false, 0)
  else (some (writeDispatch fmt old new_creds), true, 0)

/-- The dedup key recorded for one line of an existing txt output file:
the line is stripped, empty lines are skipped, and the key is the whole
matched span of the pattern or, on a failed match, the line itself. -/
def txtLineKey (line : List Char) : Option (List Char) :=
  if (stripWs line).isEmpty then none
  else
    match searchCred (stripWs line) with
    | some r => some (r.2.1 ++ ':' :: r.2.2)
    | none => some (stripWs line)

/-- The state of the existing output file as seen by the resume load:
absent, unreadable, or readable in one of the three formats, where the
json document may fail to parse. -/
inductive ResumeSource where
  | absent : ResumeSource
  | readError : ResumeSource
  | jsonFile : Except Unit (List JEntry) → ResumeSource
  | csvFile : List JEntry → ResumeSource
  | txtFile : List (List Char) → ResumeSource

/-- The resume load: the reconstructed seen set together with whether a
warning was surfaced.  Every failure is caught: the store starts empty
and the run proceeds. -/
def resumeSeen : ResumeSource → List (List Char) × Bool
  | ResumeSource.absent => ([], false)
  | ResumeSource.readError => ([], true)
  | ResumeSource.jsonFile (Except.error _) => ([], true)
  | ResumeSource.jsonFile (Except.ok es) => (es.map entryKey, false)
  | ResumeSource.csvFile rows => (rows.map entryKey, false)
  | ResumeSource.txtFile lines => (lines.filterMap txtLineKey, false)

/-- The whole run after the search: resume load, extraction over all
fetched documents, then the write phase. -/
def runPipeline (target : List Char) (src : ResumeSource)
    (leaks : List (List Char × List (List Char))) (fmt : OutFormat)
    (oldFile : Option FileContent) :
    List Cred × (Option FileContent × Bool × Nat) :=
  ((processLeaks target leaks ((resumeSeen src).1, [])).2,
   writePhase fmt oldFile (processLeaks target leaks ((resumeSeen src).1, [])).2)

/-! ### Theorems -/

theorem entryKey_credToEntry (c : Cred) : entryKey (credToEntry c) = credKey c := rfl

/-- C2: records written in the structured whole-document format and then
reloaded at the start of a subsequent run reconstruct a dedup store
whose keys are exactly the keys of the written records, in order. -/
theorem c2_json_roundtrip (existing : List JEntry) (new_creds : List Cred) :
    (resumeSeen (ResumeSource.jsonFile (Except.ok (writeJsonDoc existing new_creds)))).1 =
      existing.map entryKey ++ new_creds.map credKey := by
  simp [resumeSeen, writeJsonDoc, entryKey_credToEntry]

/-- C7: in the row and line formats the previous contents are an initial
segment of the written file, and in the whole-document format every
prior entry is reincluded, before all new records. -/
theorem c7_frame (oldTxt : Option (List Char)) (oldCsv : Option (List CsvRow))
    (existing : List JEntry) (new_creds : List Cred) :
    (∃ t, writeTxtFile oldTxt new_creds = oldTxt.getD [] ++ t) ∧
    (∃ t, writeCsvFile oldCsv new_creds = oldCsv.getD [] ++ t) ∧
    (∃ t, writeJsonDoc existing new_creds = existing ++ t) ∧
    (∀ e ∈ existing, e ∈ writeJsonDoc existing new_creds) := by
  refine ⟨⟨_, rfl⟩, ⟨_, rfl⟩, ⟨_, rfl⟩, ?_⟩
  intro e he
  exact List.mem_append_left _ he

/-- C9: a failure to read or to parse the existing output file is
non-fatal: the dedup store starts empty, a warning is surfaced, and the
rest of the run behaves exactly as a run with no existing output. -/
theorem c9_load_failure_nonfatal (target : List Char)
    (leaks : List (List Char × List (List Char))) (fmt : OutFormat)
    (oldFile : Option FileContent) :
    resumeSeen ResumeSource.readError = ([], true) ∧
    resumeSeen (ResumeSource.jsonFile (Except.error ())) = ([], true) ∧
    runPipeline target ResumeSource.readError leaks fmt oldFile =
      runPipeline target ResumeSource.absent leaks fmt oldFile ∧
    runPipeline target (ResumeSource.jsonFile (Except.error ())) leaks fmt oldFile =
      runPipeline target ResumeSource.absent leaks fmt oldFile :=
  ⟨rfl, rfl, rfl, rfl⟩

/-- C10: a run that extracts no new credential records leaves the
destination file exactly as it was (an absent file is not created), does
not invoke the writer, and exits with status zero. -/
theorem c10_no_write_when_empty (target : List Char) (src : ResumeSource)
    (leaks : List (List Char × List (List Char))) (fmt : OutFormat)
    (oldFile : Option FileContent)
    (h : (runPipeline target src leaks fmt oldFile).1 = []) :
    (runPipeline target src leaks fmt oldFile).2 = (oldFile, false, 0) := by
  have h2 : (runPipeline target src leaks fmt oldFile).2 =
      writePhase fmt oldFile (runPipeline target src leaks fmt oldFile).1 := rfl
  rw [h2, h]
  simp [writePhase]

/-- Witness for C10 at a concrete empty run. -/
theorem c10_no_write_when_empty_witness :
    (runPipeline [] ResumeSource.absent [] OutFormat.txt none).2 = (none, false, 0) :=
  c10_no_write_when_empty [] ResumeSource.absent [] OutFormat.txt none rfl

/-- C4: on the scenario line with target corp.example the extractor
emits exactly one record, with the url, email and password of the
specification. -/
theorem c4_scenario :
    processLeak ("corp.example".toList) ([], [])
      ("doc".toList,
       ["https://site.example/login:user@corp.example:Sup3rSecret!".toList]) =
    (["user@corp.example:Sup3rSecret!".toList],
     [{ url := "https://site.example/login".toList,
        email := "user@corp.example".toList,
        password := "Sup3rSecret!".toList,
        source := "doc".toList,
        raw := "https://site.example/login:user@corp.example:Sup3rSecret!".toList }]) := by
  decide

/-- Counterexample to C3 as stated: the line a@b@c.com:pw matches the
credential pattern, and capture group 1 is a@b@c.com, which contains two
at-signs rather than exactly one, because the character class of the
local part does not exclude the at-sign. -/
theorem c3_counterexample :
    searchCred ("a@b@c.com:pw".toList) =
      some (0, "a@b@c.com".toList, "pw".toList) ∧
    ("a@b@c.com".toList).count '@' = 2 := by
  decide

/-- Counterexample to C6 as stated: in a batch of two documents where
the processing of the first one raises, the loop continues to the next
document without sleeping, so no inter-request delay separates the two
consecutive fetches even though the first document is not the last. -/
theorem c6_counterexample :
    driverTrace [false, true] = [Ev.fetch 0, Ev.fetch 1] ∧
    noAdjacentFetches (driverTrace [false, true]) = false := by
  decide

theorem backoff_sum_add (m : Nat) : ∀ d : Nat, (backoff d m).sum + d = d * 2 ^ m := by
  induction m with
  | zero => intro d; simp [backoff]
  | succ m ih =>
    intro d
    have h := ih (2 * d)
    simp only [backoff, List.sum_cons]
    have hp : d * 2 ^ (m + 1) = 2 * d * 2 ^ m := by ring
    rw [hp]
    linarith [h]

theorem fvGo_all_fail (fetch : Nat → Option (List Char))
    (hf : ∀ a, fetch a = none) :
    ∀ k a d : Nat, 1 ≤ k →
      fvGo fetch k a d = ⟨none, k, backoff d (k - 1)⟩ := by
  intro k
  induction k with
  | zero => intro a d h; omega
  | succ k ih =>
    intro a d _
    cases k with
    | zero => simp [fvGo, hf a, backoff]
    | succ k2 =>
      have hrec := ih (a + 1) (2 * d) (by omega)
      simp only [fvGo, hf a, hrec, backoff, Nat.add_sub_cancel]

/-- C5: when every fetch attempt fails, the retry helper makes exactly
max_retries attempts, re-raises the final failure, performs no sleep
after the final attempt, and the sleeps form the exponential backoff
sequence starting at RETRY_DELAY and doubling after each retry, whose
total is 2 to the max_retries minus 2. -/
theorem c5_retry_exhaustion (fetch : Nat → Option (List Char)) (n : Nat)
    (hn : 1 ≤ n) (hf : ∀ a, fetch a = none) :
    file_view_with_retry fetch n =
      { result := none, attempts := n, sleeps := backoff RETRY_DELAY (n - 1) } ∧
    (backoff RETRY_DELAY (n - 1)).sum = 2 ^ n - 2 := by
  constructor
  · exact fvGo_all_fail fetch hf n 1 RETRY_DELAY hn
  · have h := backoff_sum_add (n - 1) RETRY_DELAY
    have hp : RETRY_DELAY * 2 ^ (n - 1) = 2 ^ n := by
      show 2 * 2 ^ (n - 1) = 2 ^ n
      rw [← pow_succ', Nat.sub_add_cancel hn]
    rw [hp] at h
    have hrd : RETRY_DELAY = 2 := rfl
    rw [hrd] at h
    exact Nat.eq_sub_of_add_eq h

/-- Witness for C5 at the default retry ceiling of three attempts. -/
theorem c5_retry_exhaustion_witness :
    file_view_with_retry (fun _ => none) MAX_RETRIES =
      { result := none, attempts := MAX_RETRIES,
        sleeps := backoff RETRY_DELAY (MAX_RETRIES - 1) } ∧
    (backoff RETRY_DELAY (MAX_RETRIES - 1)).sum = 2 ^ MAX_RETRIES - 2 :=
  c5_retry_exhaustion (fun _ => none) MAX_RETRIES (by decide) (fun _ => rfl)

theorem extractLine_some_key (target src : List Char) (seen : List (List Char))
    (line : List Char) (c : Cred)
    (h : extractLine target src seen line = some c) : credKey c ∉ seen := by
  unfold extractLine at h
  split at h
  · split at h
    · exact absurd h (by simp)
    · split at h
      · exact absurd h (by simp)
      · rename_i hns
        injection h with h2
        rw [← h2]
        exact hns
  · exact absurd h (by simp)

/-- The invariant of the extraction loop relative to the initially
loaded seen set: the keys of the accumulated new records are pairwise
distinct, none of them was already loaded, and the seen set holds
exactly the loaded keys and the accumulated keys. -/
def seenInv (seen0 : List (List Char)) (st : List (List Char) × List Cred) : Prop :=
  (st.2.map credKey).Nodup ∧ (∀ c ∈ st.2, credKey c ∉ seen0) ∧
  (∀ k, k ∈ st.1 ↔ (k ∈ seen0 ∨ k ∈ st.2.map credKey))

theorem stepLine_inv (target src : List Char) (seen0 : List (List Char))
    (st : List (List Char) × List Cred) (line : List Char)
    (h : seenInv seen0 st) : seenInv seen0 (stepLine target src st line) := by
  obtain ⟨h1, h2, h3⟩ := h
  unfold stepLine
  cases he : extractLine target src st.1 line with
  | none => exact ⟨h1, h2, h3⟩
  | some c =>
    have hkey : credKey c ∉ st.1 := extractLine_some_key target src st.1 line c he
    have hknew : credKey c ∉ st.2.map credKey := by
      intro hmem
      exact hkey ((h3 (credKey c)).mpr (Or.inr hmem))
    have hkold : credKey c ∉ seen0 := by
      intro hmem
      exact hkey ((h3 (credKey c)).mpr (Or.inl hmem))
    refine ⟨?_, ?_, ?_⟩
    · simp only [List.map_append, List.map_cons, List.map_nil]
      rw [List.nodup_append]
      refine ⟨h1, List.nodup_singleton _, ?_⟩
      intro a ha hb
      simp only [List.mem_singleton] at hb
      rw [hb] at ha
      exact hknew ha
    · intro c2 hc2
      rcases List.mem_append.mp hc2 with hl | hr
      · exact h2 c2 hl
      · rw [List.mem_singleton.mp hr]
        exact hkold
    · intro k
      simp only [List.mem_cons, List.map_append, List.map_cons, List.map_nil,
        List.mem_append, List.mem_singleton, List.not_mem_nil, or_false]
      constructor
      · intro hk
        rcases hk with hk | hk
        · exact Or.inr (Or.inr hk)
        · rcases (h3 k).mp hk with hk2 | hk2
          · exact Or.inl hk2
          · exact Or.inr (Or.inl hk2)
      · intro hk
        rcases hk with hk | hk | hk
        · exact Or.inr ((h3 k).mpr (Or.inl hk))
        · exact Or.inr ((h3 k).mpr (Or.inr hk))
        · exact Or.inl hk

theorem foldl_inv {σ β : Type} (P : σ → Prop) (f : σ → β → σ)
    (hf : ∀ s b, P s → P (f s b)) :
    ∀ (l : List β) (s : σ), P s → P (l.foldl f s) := by
  intro l
  induction l with
  | nil => intro s hs; exact hs
  | cons b l ih =>
    intro s hs
    exact ih (f s b) (hf s b hs)

theorem processLeaks_inv (target : List Char) (seen0 : List (List Char))
    (leaks : List (List Char × List (List Char)))
    (st : List (List Char) × List Cred) (h : seenInv seen0 st) :
    seenInv seen0 (processLeaks target leaks st) := by
  refine foldl_inv (seenInv seen0) (processLeak target) ?_ leaks st h
  intro s leak hs
  exact foldl_inv (seenInv seen0) (stepLine target leak.1)
    (fun s2 line hs2 => stepLine_inv target leak.1 seen0 s2 line hs2) leak.2 s hs

/-- C1: over one run, the keys of the records appended to new_creds are
pairwise distinct and disjoint from the keys loaded from the existing
output; the final seen set holds exactly the loaded keys together with
the keys of the appended records, so no dedup key is ever retained
twice and the first occurrence wins. -/
theorem c1_dedup_invariant (target : List Char)
    (leaks : List (List Char × List (List Char))) (seen0 : List (List Char)) :
    (((processLeaks target leaks (seen0, [])).2.map credKey).Nodup) ∧
    (∀ c ∈ (processLeaks target leaks (seen0, [])).2, credKey c ∉ seen0) ∧
    (∀ k, k ∈ (processLeaks target leaks (seen0, [])).1 ↔
      (k ∈ seen0 ∨ k ∈ (processLeaks target leaks (seen0, [])).2.map credKey)) := by
  refine processLeaks_inv target seen0 leaks (seen0, []) ?_
  refine ⟨List.nodup_nil, ?_, ?_⟩
  · intro c hc
    exact absurd hc (List.not_mem_nil c)
  · intro k
    simp

theorem noAdjacentFetches_fetch_sleep (i : Nat) (q : ℚ) (t : List Ev) :
    noAdjacentFetches (Ev.fetch i :: Ev.sleep q :: t) =
      noAdjacentFetches (Ev.sleep q :: t) := rfl

theorem noAdjacentFetches_sleep (q : ℚ) (t : List Ev) :
    noAdjacentFetches (Ev.sleep q :: t) = noAdjacentFetches t := rfl

theorem noAdjacentFetches_fetch_fetch (i j : Nat) (t : List Ev) :
    noAdjacentFetches (Ev.fetch i :: Ev.fetch j :: t) = false := rfl

theorem countSleeps_cons_fetch (i : Nat) (t : List Ev) :
    countSleeps (Ev.fetch i :: t) = countSleeps t := by
  simp [countSleeps, List.countP_cons]

theorem countSleeps_cons_sleep (q : ℚ) (t : List Ev) :
    countSleeps (Ev.sleep q :: t) = countSleeps t + 1 := by
  simp [countSleeps, List.countP_cons]

theorem driverTraceAux_noAdj (docs : List Bool) :
    ∀ i : Nat, noAdjacentFetches (driverTraceAux i docs) =
      docs.dropLast.all (fun b => b) := by
  induction docs with
  | nil => intro i; rfl
  | cons ok rest ih =>
    intro i
    cases rest with
    | nil => cases ok <;> rfl
    | cons r rs =>
      have hstep : driverTraceAux (i+1) (r :: rs) =
          Ev.fetch (i+1) ::
            ((if r && !rs.isEmpty then [Ev.sleep REQUEST_DELAY] else []) ++
              driverTraceAux (i+2) rs) := rfl
      cases ok with
      | false =>
        have ht : driverTraceAux i (false :: r :: rs) =
            Ev.fetch i :: driverTraceAux (i+1) (r :: rs) := by
          simp [driverTraceAux]
        rw [ht, hstep, noAdjacentFetches_fetch_fetch]
        simp [List.dropLast]
      | true =>
        have ht : driverTraceAux i (true :: r :: rs) =
            Ev.fetch i :: Ev.sleep REQUEST_DELAY :: driverTraceAux (i+1) (r :: rs) := by
          simp [driverTraceAux]
        rw [ht, noAdjacentFetches_fetch_sleep, noAdjacentFetches_sleep, ih (i+1)]
        simp [List.dropLast]

theorem driverTraceAux_countSleeps (docs : List Bool) :
    ∀ i : Nat, countSleeps (driverTraceAux i docs) =
      docs.dropLast.countP (fun b => b) := by
  induction docs with
  | nil => intro i; rfl
  | cons ok rest ih =>
    intro i
    cases rest with
    | nil => cases ok <;> rfl
    | cons r rs =>
      cases ok with
      | false =>
        have ht : driverTraceAux i (false :: r :: rs) =
            Ev.fetch i :: driverTraceAux (i+1) (r :: rs) := by
          simp [driverTraceAux]
        rw [ht, countSleeps_cons_fetch, ih (i+1)]
        simp [List.dropLast, List.countP_cons]
      | true =>
        have ht : driverTraceAux i (true :: r :: rs) =
            Ev.fetch i :: Ev.sleep REQUEST_DELAY :: driverTraceAux (i+1) (r :: rs) := by
          simp [driverTraceAux]
        rw [ht, countSleeps_cons_fetch, countSleeps_cons_sleep, ih (i+1)]
        simp [List.dropLast, List.countP_cons]

theorem driverTraceAux_sleep_val (docs : List Bool) :
    ∀ (i : Nat) (q : ℚ), Ev.sleep q ∈ driverTraceAux i docs → q = REQUEST_DELAY := by
  induction docs with
  | nil => intro i q h; exact absurd h (List.not_mem_nil _)
  | cons ok rest ih =>
    intro i q h
    simp only [driverTraceAux, List.mem_cons, List.mem_append] at h
    rcases h with h | h | h
    · exact absurd h (by simp)
    · by_cases hc : (ok && !rest.isEmpty) = true
      · rw [if_pos hc] at h
        simp only [List.mem_singleton, Ev.sleep.injEq] at h
        exact h
      · rw [if_neg hc] at h
        exact absurd h (List.not_mem_nil _)
    · exact ih (i+1) q h

/-- C6 amended: every rate-limit sleep of the driver loop lasts
REQUEST_DELAY; a sleep separates every two consecutive document fetches
exactly when every non-final document of the batch was processed without
an exception; and the number of such sleeps equals the number of
non-final documents processed without an exception, so the delay is
skipped after the last document and after any document whose processing
raised. -/
theorem c6_request_delay_amended (docs : List Bool) :
    (noAdjacentFetches (driverTrace docs) = docs.dropLast.all (fun b => b)) ∧
    (countSleeps (driverTrace docs) = docs.dropLast.countP (fun b => b)) ∧
    (∀ q : ℚ, Ev.sleep q ∈ driverTrace docs → q = REQUEST_DELAY) :=
  ⟨driverTraceAux_noAdj docs 0, driverTraceAux_countSleeps docs 0,
   driverTraceAux_sleep_val docs 0⟩

/-- The invariant of the aggregation loop: the storage identifiers of
the collected documents are pairwise distinct, each collected document
has a nonempty identifier, and every such identifier is in seen_ids. -/
def aggInv (st : List (List Char) × List RawDoc) : Prop :=
  (st.2.map RawDoc.storageid).Nodup ∧
  (∀ r ∈ st.2, ∃ s, r.storageid = some s ∧ s.isEmpty = false ∧ s ∈ st.1)

theorem aggStep_inv (st : List (List Char) × List RawDoc) (r : RawDoc)
    (h : aggInv st) : aggInv (aggStep st r) := by
  obtain ⟨h1, h2⟩ := h
  cases hs : r.storageid with
  | none => simp only [aggStep, hs]; exact ⟨h1, h2⟩
  | some sid =>
    simp only [aggStep, hs]
    by_cases hc : sid.isEmpty = false ∧ sid ∉ st.1
    · rw [if_pos hc]
      constructor
      · simp only [List.map_append, List.map_cons, List.map_nil]
        rw [List.nodup_append]
        refine ⟨h1, List.nodup_singleton _, ?_⟩
        intro a ha hb
        simp only [List.mem_singleton] at hb
        rw [hb, hs] at ha
        obtain ⟨r2, hr2, hr2s⟩ := List.mem_map.mp ha
        obtain ⟨s2, hs2, _, hs2m⟩ := h2 r2 hr2
        rw [hs2] at hr2s
        have hss : s2 = sid := by injection hr2s
        rw [hss] at hs2m
        exact hc.2 hs2m
      · intro r2 hr2
        rcases List.mem_append.mp hr2 with hl | hrr
        · obtain ⟨s2, hs2, hse, hsm⟩ := h2 r2 hl
          exact ⟨s2, hs2, hse, List.mem_cons_of_mem _ hsm⟩
        · rw [List.mem_singleton.mp hrr]
          exact ⟨sid, hs, hc.1, List.mem_cons_self _ _⟩
    · rw [if_neg hc]
      exact ⟨h1, h2⟩

theorem aggStep_cases (st : List (List Char) × List RawDoc) (r : RawDoc) :
    aggStep st r = st ∨ ∃ sid, aggStep st r = (sid :: st.1, st.2 ++ [r]) := by
  cases hs : r.storageid with
  | none => simp only [aggStep, hs]; left; trivial
  | some sid =>
    simp only [aggStep, hs]
    by_cases hc : sid.isEmpty = false ∧ sid ∉ st.1
    · rw [if_pos hc]
      exact Or.inr ⟨sid, rfl⟩
    · rw [if_neg hc]
      left
      trivial

theorem aggFold_sublist :
    ∀ (l : List RawDoc) (st : List (List Char) × List RawDoc),
      ∃ t, (l.foldl aggStep st).2 = st.2 ++ t ∧ t.Sublist l := by
  intro l
  induction l with
  | nil => intro st; exact ⟨[], by simp, List.nil_sublist []⟩
  | cons r l ih =>
    intro st
    rw [List.foldl_cons]
    rcases aggStep_cases st r with he | ⟨sid, he⟩
    · rw [he]
      obtain ⟨t, ht, hsub⟩ := ih st
      exact ⟨t, ht, hsub.cons r⟩
    · rw [he]
      obtain ⟨t, ht, hsub⟩ := ih (sid :: st.1, st.2 ++ [r])
      refine ⟨r :: t, ?_, hsub.cons₂ r⟩
      rw [ht]
      simp

theorem foldl_nested_flatten {α σ : Type} (f : σ → α → σ) :
    ∀ (L : List (List α)) (s : σ),
      L.foldl (fun st recs => recs.foldl f st) s = L.flatten.foldl f s := by
  intro L
  induction L with
  | nil => intro s; rfl
  | cons l L ih =>
    intro s
    simp only [List.foldl_cons, List.flatten_cons, List.foldl_append]
    exact ih (l.foldl f s)

/-- C8: the aggregated document list has pairwise-distinct storage
identifiers, every collected document carries a nonempty identifier
(records lacking one are omitted), and the list is a sublist of the
concatenated query results, preserving first-seen order. -/
theorem c8_aggregator (queries : List (List RawDoc)) :
    (((aggregate queries).2.map RawDoc.storageid).Nodup) ∧
    (∀ r ∈ (aggregate queries).2,
      r.storageid ≠ none ∧ ∃ s, r.storageid = some s ∧ s.isEmpty = false) ∧
    ((aggregate queries).2.Sublist queries.flatten) := by
  have hflat : aggregate queries = queries.flatten.foldl aggStep ([], []) := by
    unfold aggregate
    exact foldl_nested_flatten aggStep queries ([], [])
  have hinv : aggInv (queries.flatten.foldl aggStep ([], [])) := by
    refine foldl_inv aggInv aggStep (fun s r hs => aggStep_inv s r hs) _ _ ?_
    exact ⟨List.nodup_nil, fun r hr => absurd hr (List.not_mem_nil r)⟩
  obtain ⟨t, ht, hsub⟩ := aggFold_sublist queries.flatten ([], [])
  rw [hflat]
  obtain ⟨h1, h2⟩ := hinv
  refine ⟨h1, ?_, ?_⟩
  · intro r hr
    obtain ⟨s, hs, hse, _⟩ := h2 r hr
    refine ⟨?_, ⟨s, hs, hse⟩⟩
    rw [hs]
    simp
  · rw [ht]
    simpa using hsub

theorem credChar_good (c : Char) (h : credChar c = true) :
    c ≠ ':' ∧ c ≠ '/' ∧ pySpace c = false := by
  simp only [credChar, Bool.not_eq_true', Bool.or_eq_false_iff,
    beq_eq_false_iff_ne, ne_eq] at h
  exact ⟨h.1.2, h.1.1, h.2⟩

theorem asciiLetter_good (c : Char) (h : asciiLetter c = true) :
    c ≠ ':' ∧ c ≠ '/' ∧ pySpace c = false := by
  simp only [asciiLetter, Bool.or_eq_true, Bool.and_eq_true, decide_eq_true_eq] at h
  refine ⟨?_, ?_, ?_⟩
  · intro he
    rw [he] at h
    revert h
    decide
  · intro he
    rw [he] at h
    revert h
    decide
  · cases hps : pySpace c with
    | false => rfl
    | true =>
      have hmem : c.toNat ∈ pySpaceCodes := by
        simp only [pySpace, decide_eq_true_eq] at hps
        exact hps
      have hbound : ∀ n ∈ pySpaceCodes, n < 65 ∨ (90 < n ∧ n < 97) ∨ 122 < n := by
        decide
      have hb := hbound c.toNat hmem
      omega

theorem runLen_le_length (p : Char → Bool) : ∀ l : List Char, runLen p l ≤ l.length := by
  intro l
  induction l with
  | nil => simp [runLen]
  | cons c cs ih =>
    simp only [runLen, List.length_cons]
    by_cases hp : p c = true
    · rw [if_pos hp]
      omega
    · rw [if_neg hp]
      omega

theorem runLen_take_all (p : Char → Bool) :
    ∀ (l : List Char) (k : Nat), k ≤ runLen p l → ∀ c ∈ l.take k, p c = true := by
  intro l
  induction l with
  | nil => intro k hk c hc; simp at hc
  | cons a l ih =>
    intro k hk c hc
    cases k with
    | zero => simp at hc
    | succ k =>
      simp only [runLen] at hk
      by_cases hp : p a = true
      · rw [if_pos hp] at hk
        simp only [List.take_succ_cons, List.mem_cons] at hc
        rcases hc with hc | hc
        · rw [hc]
          exact hp
        · exact ih k (by omega) c hc
      · rw [if_neg hp] at hk
        omega

theorem take_ne_nil_of_pos (l : List Char) (k : Nat) (hk : 1 ≤ k) (hl : 1 ≤ l.length) :
    l.take k ≠ [] := by
  cases l with
  | nil => simp at hl
  | cons a l =>
    cases k with
    | zero => omega
    | succ k => simp

theorem firstSome_eq_some {α : Type} (f : Nat → Option α) :
    ∀ (ns : List Nat) (r : α), firstSome f ns = some r → ∃ n, n ∈ ns ∧ f n = some r := by
  intro ns
  induction ns with
  | nil => intro r h; simp [firstSome] at h
  | cons n ns ih =>
    intro r h
    cases hf : f n with
    | some x =>
      simp only [firstSome, hf] at h
      exact ⟨n, List.mem_cons_self n ns, by rw [hf, h]⟩
    | none =>
      simp only [firstSome, hf] at h
      obtain ⟨m, hm, hfm⟩ := ih r h
      exact ⟨m, List.mem_cons_of_mem n hm, hfm⟩

theorem matchTail_some (rest q : List Char) (h : matchTail rest = some q) : q ≠ [] := by
  unfold matchTail at h
  by_cases hc : ((chopNl rest).isEmpty || (chopNl rest).contains '\n') = true
  · rw [if_pos hc] at h
    exact absurd h (by simp)
  · rw [if_neg hc] at h
    injection h with h2
    intro hnil
    apply hc
    rw [h2, hnil]
    simp

theorem trySuffix_facts (l : List Char) (m : Nat) (s q : List Char)
    (h : trySuffix l m = some (s, q)) :
    s ≠ [] ∧ (∀ c ∈ s, asciiLetter c = true) ∧ q ≠ [] := by
  unfold trySuffix at h
  split at h
  · rename_i hcond
    split at h
    · rename_i rest hdrop
      rw [Option.map_eq_some'] at h
      obtain ⟨p, hp, hpe⟩ := h
      injection hpe with h1 h2
      have hlen : 1 ≤ l.length := by
        have := runLen_le_length asciiLetter l
        omega
      refine ⟨?_, ?_, ?_⟩
      · rw [← h1]
        exact take_ne_nil_of_pos l m (by omega) hlen
      · intro c hc
        rw [← h1] at hc
        exact runLen_take_all asciiLetter l m hcond.2 c hc
      · rw [← h2]
        exact matchTail_some rest p hp
    · exact absurd h (by simp)
  · exact absurd h (by simp)

theorem matchSuffix_facts (l : List Char) (s q : List Char)
    (h : matchSuffix l = some (s, q)) :
    s ≠ [] ∧ (∀ c ∈ s, asciiLetter c = true) ∧ q ≠ [] := by
  obtain ⟨m, _, hm⟩ := firstSome_eq_some (trySuffix l) _ _ h
  exact trySuffix_facts l m s q hm

theorem tryY_facts (l : List Char) (j : Nat) (y s q : List Char)
    (h : tryY l j = some (y, s, q)) :
    (∀ c ∈ y, credChar c = true) ∧ s ≠ [] ∧
      (∀ c ∈ s, asciiLetter c = true) ∧ q ≠ [] := by
  unfold tryY at h
  split at h
  · rename_i hcond
    split at h
    · rename_i rest hdrop
      rw [Option.map_eq_some'] at h
      obtain ⟨sp, hsp, hspe⟩ := h
      injection hspe with h1 h23
      injection h23 with h2 h3
      obtain ⟨hs1, hs2, hs3⟩ := matchSuffix_facts rest sp.1 sp.2 (by rw [hsp])
      refine ⟨?_, ?_, ?_, ?_⟩
      · intro c hc
        rw [← h1] at hc
        exact runLen_take_all credChar l j hcond.2 c hc
      · rw [← h2]
        exact hs1
      · intro c hc
        rw [← h2] at hc
        exact hs2 c hc
      · rw [← h3]
        exact hs3
    · exact absurd h (by simp)
  · exact absurd h (by simp)

theorem matchAfterAt_facts (l : List Char) (y s q : List Char)
    (h : matchAfterAt l = some (y, s, q)) :
    (∀ c ∈ y, credChar c = true) ∧ s ≠ [] ∧
      (∀ c ∈ s, asciiLetter c = true) ∧ q ≠ [] := by
  obtain ⟨j, _, hj⟩ := firstSome_eq_some (tryY l) _ _ h
  exact tryY_facts l j y s q hj

theorem tryX_facts (l : List Char) (k : Nat) (em pw : List Char)
    (h : tryX l k = some (em, pw)) :
    '@' ∈ em ∧ (∀ c ∈ em, c ≠ ':' ∧ c ≠ '/' ∧ pySpace c = false) ∧ pw ≠ [] := by
  unfold tryX at h
  split at h
  · rename_i hcond
    split at h
    · rename_i rest hdrop
      rw [Option.map_eq_some'] at h
      obtain ⟨ysp, hysp, hye⟩ := h
      injection hye with h1 h2
      obtain ⟨hy, _, hs2, hq⟩ :=
        matchAfterAt_facts rest ysp.1 ysp.2.1 ysp.2.2 (by rw [hysp])
      refine ⟨?_, ?_, ?_⟩
      · rw [← h1]
        simp
      · intro c hc
        rw [← h1] at hc
        simp only [List.mem_append, List.mem_cons] at hc
        rcases hc with hc | hc | hc | hc | hc
        · exact credChar_good c (runLen_take_all credChar l k hcond.2 c hc)
        · rw [hc]
          decide
        · exact credChar_good c (hy c hc)
        · rw [hc]
          decide
        · exact asciiLetter_good c (hs2 c hc)
      · rw [← h2]
        exact hq
    · exact absurd h (by simp)
  · exact absurd h (by simp)

theorem matchAt_facts (l : List Char) (em pw : List Char)
    (h : matchAt l = some (em, pw)) :
    '@' ∈ em ∧ (∀ c ∈ em, c ≠ ':' ∧ c ≠ '/' ∧ pySpace c = false) ∧ pw ≠ [] := by
  obtain ⟨k, _, hk⟩ := firstSome_eq_some (tryX l) _ _ h
  exact tryX_facts l k em pw hk

theorem searchCred_facts :
    ∀ (l : List Char) (i : Nat) (em pw : List Char),
      searchCred l = some (i, em, pw) →
      '@' ∈ em ∧ (∀ c ∈ em, c ≠ ':' ∧ c ≠ '/' ∧ pySpace c = false) ∧ pw ≠ [] := by
  intro l
  induction l with
  | nil => intro i em pw h; simp [searchCred] at h
  | cons a l ih =>
    intro i em pw h
    cases hm : matchAt (a :: l) with
    | some ep =>
      simp only [searchCred, hm, Option.some.injEq, Prod.mk.injEq] at h
      obtain ⟨h1, h2, h3⟩ := h
      rw [← h2, ← h3]
      exact matchAt_facts (a :: l) ep.1 ep.2 (by rw [hm])
    | none =>
      simp only [searchCred, hm] at h
      cases hs : searchCred l with
      | none =>
        rw [hs] at h
        exact absurd h (by simp)
      | some r =>
        rw [hs] at h
        simp only [Option.map_some', Option.some.injEq, Prod.mk.injEq] at h
        obtain ⟨h1, h2, h3⟩ := h
        rw [← h2, ← h3]
        exact ih r.1 r.2.1 r.2.2 (by rw [hs])

/-- C3 amended: for every line matching the credential pattern, the
captured email contains at least one at-sign (possibly more, since the
character class of the local part does not exclude it) and no colon,
slash or whitespace character, and the captured password is non-empty. -/
theorem c3_email_shape (l : List Char) (i : Nat) (em pw : List Char)
    (h : searchCred l = some (i, em, pw)) :
    1 ≤ em.count '@' ∧ (∀ c ∈ em, c ≠ ':' ∧ c ≠ '/' ∧ pySpace c = false) ∧
      pw ≠ [] := by
  obtain ⟨hat, hchars, hpw⟩ := searchCred_facts l i em pw h
  exact ⟨List.count_pos_iff.mpr hat, hchars, hpw⟩

/-- Witness for C3 amended at a concrete matching line. -/
theorem c3_email_shape_witness :
    1 ≤ ("a@b.com".toList).count '@' ∧
    (∀ c ∈ "a@b.com".toList, c ≠ ':' ∧ c ≠ '/' ∧ pySpace c = false) ∧
    ("x".toList) ≠ [] :=
  c3_email_shape ("a@b.com:x".toList) 0 ("a@b.com".toList) ("x".toList) (by decide)
